import Mathlib

/-!
Verification of the wordpress-to-markdown converter (src/convert.js).

The development shallowly embeds the parts of `convert.js` that the claims
are about:

* the image localizer (`downloadFile`, `processImage`, `processImages`,
  `constructImageName`) together with a character-level model of the
  `<img ... src="...">` regular-expression scan and of the JavaScript
  string primitives it relies on (`trim`, global literal `replace`,
  `includes`, `endsWith`);
* the distributed sampler inlined in `processExport` (grouping by the
  lowercased first letter of the title, stable descending sort of the
  buckets by size, and the round-robin selection loop), modelled with an
  explicit fuel counter since the source loop's termination is one of the
  claims;
* the description and hero-image pieces of `processPost`.

External collaborators (the network, `node-fetch`, the filesystem, the
`he` entity decoder, the `image-type` sniffer, WHATWG `URL`) are modelled
at their interfaces; each such model carries a doc comment saying what it
models.  Side effects are made observable by threading explicit traces:
`attempts` records every URL handed to `downloadFile` and `writes` records
every file write, which the source performs with `fetch` and
`fs.writeFileSync` respectively.
-/

/-- Byte payloads are lists of naturals (one per byte). -/
def Bytes := List Nat
deriving DecidableEq

/-- Model of the network: a deterministic oracle mapping an absolute URL to
the bytes of a successful (`response.ok`) download, or `none` for any
failure (HTTP error status, network error, unparseable absolute URL). -/
def Network := String → Option Bytes

/-- JavaScript `String.prototype.trim`: strip whitespace from both ends. -/
def jsTrim (s : String) : String :=
  String.mk (((s.data.dropWhile Char.isWhitespace).reverse.dropWhile Char.isWhitespace).reverse)

/-- JavaScript `String.prototype.startsWith` for plain strings. -/
def jsStartsWith (s pre : String) : Bool :=
  pre.data.isPrefixOf s.data

/-- Does `sub` occur inside `cs`?  Model of `String.prototype.includes`. -/
def listContainsSub (sub : List Char) : List Char → Bool
  | [] => sub.isEmpty
  | c :: rest => sub.isPrefixOf (c :: rest) || listContainsSub sub rest

/-- JavaScript `String.prototype.includes`. -/
def strContains (s sub : String) : Bool :=
  listContainsSub sub.data s.data

/-- JavaScript `String.prototype.endsWith`. -/
def jsEndsWith (s suffix : String) : Bool :=
  suffix.data.reverse.isPrefixOf s.data.reverse

/-- Core of `jsReplaceAll`: replace the leftmost occurrence of `pat`,
continue after the replacement, exactly as a global literal regex does.
`fuel` only serves totality; `s.length` is always enough fuel because the
nonempty pattern makes every step consume at least one character. -/
def replaceAllCore (pat rep : List Char) : Nat → List Char → List Char
  | 0, s => s
  | _ + 1, [] => []
  | fuel + 1, c :: rest =>
    if pat.isPrefixOf (c :: rest) then
      rep ++ replaceAllCore pat rep fuel ((c :: rest).drop pat.length)
    else
      c :: replaceAllCore pat rep fuel rest

/-- JavaScript `s.replace(new RegExp(escapedLiteral, "g"), rep)`: replace
every non-overlapping occurrence of `pat`, left to right.  The source only
calls this with a nonempty pattern (the escaped image URL). -/
def jsReplaceAll (s pat rep : String) : String :=
  if pat.data.isEmpty then s
  else String.mk (replaceAllCore pat.data rep.data s.data.length s.data)

/-- Model of the external `he.decode` entity decoder as used on image URLs:
the common named/numeric entities are rewritten to their characters.  The
claims under verification never hinge on exotic entities. -/
def htmlDecode (s : String) : String :=
  jsReplaceAll (jsReplaceAll (jsReplaceAll (jsReplaceAll (jsReplaceAll s
    "&amp;" "&") "&lt;" "<") "&gt;" ">") "&quot;" "\"") "&#39;" "'"

/-- Is the string an absolute http(s) URL?  `node-fetch` rejects anything
else ("only absolute URLs are supported") before doing any network I/O. -/
def isRemoteUrl (s : String) : Bool :=
  jsStartsWith s "http://" || jsStartsWith s "https://"

/-- Model of `downloadFile` (convert.js lines 240-262): a fetch of an
absolute URL consults the network oracle; any non-ok response or network
error surfaces as a thrown error, modelled as `none`; a non-absolute URL
makes `fetch` itself throw, also `none`. -/
def downloadFile (net : Network) (url : String) : Option Bytes :=
  if isRemoteUrl url then net url else none

/-- Model of `new URL(u).pathname` for the http(s) URLs the converter
downloads: the text from the first `/` after the scheme-and-host part up to
a `?` or `#`, or `/` when the authority is not followed by a path. -/
def urlPathname (u : String) : String :=
  let afterScheme :=
    if jsStartsWith u "https://" then u.data.drop 8
    else if jsStartsWith u "http://" then u.data.drop 7
    else u.data
  let pathAndAfter := afterScheme.dropWhile (fun c => c ≠ '/')
  match pathAndAfter with
  | [] => "/"
  | ps => String.mk (ps.takeWhile (fun c => c ≠ '?' && c ≠ '#'))

/-- `path.basename` / `path.parse(p).base`: the text after the last `/`. -/
def pathBasename (p : String) : String :=
  String.mk ((p.data.reverse.takeWhile (fun c => c ≠ '/')).reverse)

/-- `path.parse(s).name`: drop the extension (the suffix from the last dot)
unless the dot is the leading character (dotfile). -/
def stripExtName (s : String) : String :=
  let afterDot := s.data.reverse.dropWhile (fun c => c ≠ '.')
  match afterDot with
  | [] => s
  | _ :: restRev => if restRev.isEmpty then s else String.mk restRev.reverse

/-- Model of the external `image-type` sniffer: inspect the magic signature
of the downloaded bytes; `none` when the signature is unknown (the source
would then throw while destructuring). -/
def imageTypeExt (b : Bytes) : Option String :=
  if (List.take 8 b) = [0x89, 0x50, 0x4E, 0x47, 0x0D, 0x0A, 0x1A, 0x0A] then some "png"
  else if (List.take 3 b) = [0xFF, 0xD8, 0xFF] then some "jpg"
  else if (List.take 4 b) = [0x47, 0x49, 0x46, 0x38] then some "gif"
  else none

/-- `/^\//`: strip one leading slash. -/
def stripLeadingSlash (s : String) : String :=
  if jsStartsWith s "/" then String.mk (s.data.drop 1) else s

/-- `constructImageName` (convert.js lines 228-238): clean the URL pathname
(drop the leading slash, `/`→`-`, remove `*`), keep its extensionless name,
and append the extension sniffed from the bytes' magic signature.  This
function is defined in the source but never called. -/
def constructImageName (pathname : String) (buffer : Bytes) : Option String :=
  let cleaned := jsReplaceAll (jsReplaceAll (stripLeadingSlash pathname) "/" "-") "*" ""
  (imageTypeExt buffer).map (fun ext => stripExtName cleaned ++ "." ++ ext)

/-- Result of one `processImage` call.  `postData` and `images` mirror the
source's returned pair; `attempts` (URLs handed to `downloadFile`) and
`writes` (files written with their bytes) make the side effects of the call
observable. -/
structure ImgResult where
  postData : Option String
  images : List String
  attempts : List String
  writes : List (String × Bytes)
deriving DecidableEq

/-- `processImage` (convert.js lines 264-312).  A falsy (`none` or empty)
URL is skipped before anything else.  Otherwise the URL is entity-decoded
and trimmed and handed to `downloadFile`; any failure there is caught and
leaves body and image list untouched.  On success the local name is the
basename of the URL's pathname (`path.parse(urlObj.pathname).base`), the
bytes are written under `directory`, and every literal occurrence of the
cleaned URL in a truthy string body is replaced by
`./<basename directory>/<name>`.  An empty basename makes
`fs.writeFileSync` target the directory itself and throw (EISDIR), which
the same catch turns into an unchanged return. -/
def processImage (net : Network) (url : Option String) (postData : Option String)
    (images : List String) (directory : String) : ImgResult :=
  match url with
  | none => ⟨postData, images, [], []⟩
  | some u =>
    if u = "" then ⟨postData, images, [], []⟩
    else
      let cleanedUrl := jsTrim (htmlDecode u)
      match downloadFile net cleanedUrl with
      | none => ⟨postData, images, [cleanedUrl], []⟩
      | some buffer =>
        let imageName := pathBasename (urlPathname cleanedUrl)
        if imageName = "" then ⟨postData, images, [cleanedUrl], []⟩
        else
          let relImagePath := "./" ++ pathBasename directory ++ "/" ++ imageName
          let newPostData :=
            match postData with
            | none => none
            | some pd => if pd = "" then some pd else some (jsReplaceAll pd cleanedUrl relImagePath)
          ⟨newPostData, images ++ [imageName],
            [cleanedUrl], [(directory ++ "/" ++ imageName, buffer)]⟩

/-- One step of `[...new Set(xs)]`: keep the element iff unseen. -/
def setDedupStep (acc : List String) (a : String) : List String :=
  if a ∈ acc then acc else acc ++ [a]

/-- `[...new Set(xs)]`: deduplicate keeping first occurrences in order. -/
def setDedup (l : List String) : List String :=
  l.foldl setDedupStep []

/-- Is the character one of the two quote characters of the regex? -/
def isQuote (c : Char) : Bool := c = '"' || c = '\''

/-- `src=["']([^"']+)["']` at the head of `cs`: the literal `src=`, an
opening quote, a nonempty maximal run of non-quote characters (the
capture), and a closing quote.  Returns the capture and the rest of the
input after the match. -/
def trySrcAt (cs : List Char) : Option (List Char × List Char) :=
  match cs with
  | 's' :: 'r' :: 'c' :: '=' :: q :: rest =>
    if isQuote q then
      let cap := rest.takeWhile (fun c => !isQuote c)
      match rest.drop cap.length with
      | q2 :: rest3 => if !cap.isEmpty && isQuote q2 then some (cap, rest3) else none
      | [] => none
    else none
  | _ => none

/-- Backtracking for the greedy `[^>]+`: try the segment lengths `k`,
`k-1`, ..., `1` (longest first, as the regex engine does) and match
`src=["']([^"']+)["']` right after the segment. -/
def imgTryK (afterImg : List Char) : Nat → Option (List Char × List Char)
  | 0 => none
  | k + 1 =>
    match trySrcAt (afterImg.drop (k + 1)) with
    | some r => some r
    | none => imgTryK afterImg k

/-- Try the regex `<img[^>]+src=["']([^"']+)["']` at the start of `cs`. -/
def matchAt (cs : List Char) : Option (List Char × List Char) :=
  match cs with
  | '<' :: 'i' :: 'm' :: 'g' :: afterImg =>
    imgTryK afterImg ((afterImg.takeWhile (fun c => c ≠ '>')).length)
  | _ => none

/-- `matchAll` scan: find non-overlapping matches left to right, resuming
after each match.  `fuel` only serves totality; the input length is enough
because every step strictly shortens the text under scan. -/
def imgScanFuel : Nat → List Char → List (List Char)
  | 0, _ => []
  | _ + 1, [] => []
  | fuel + 1, c :: rest =>
    match matchAt (c :: rest) with
    | some (cap, after) => cap :: imgScanFuel fuel after
    | none => imgScanFuel fuel rest

/-- The captured `src` values of `postData.matchAll(imgRegex)` (convert.js
lines 322-323), in order. -/
def imgMatches (s : String) : List String :=
  (imgScanFuel s.data.length s.data).map String.mk

/-- The loop body of `processImages` (convert.js lines 325-343), iterating
over the match list computed once from the initial body.  A blank candidate
is skipped (`continue`); otherwise `processImage` runs on the current body.
In the source `images` and the returned `newImages` alias the same mutated
array, so the post-step image list is `new Set` applied to that array
spread twice. -/
def processImagesLoop (net : Network) (directory : String) :
    List String → ImgResult → ImgResult
  | [], st => st
  | m :: rest, st =>
    let url := jsTrim m
    if url = "" then processImagesLoop net directory rest st
    else
      let r := processImage net (some url) st.postData st.images directory
      processImagesLoop net directory rest
        ⟨r.postData, setDedup (r.images ++ r.images),
          st.attempts ++ r.attempts, st.writes ++ r.writes⟩

/-- `processImages` (convert.js lines 314-346).  A falsy body (absent or
empty) returns immediately with no images; otherwise the matches are
collected from the body once and processed in order. -/
def processImages (net : Network) (postData : Option String) (directory : String) : ImgResult :=
  match postData with
  | none => ⟨none, [], [], []⟩
  | some pd =>
    if pd = "" then ⟨some pd, [], [], []⟩
    else processImagesLoop net directory (imgMatches pd) ⟨some pd, [], [], []⟩

/-- A content record as the sampler sees it: only the title matters for
grouping (`post.title` resp. `post.title[0]` in the source). -/
structure Post where
  title : String
deriving DecidableEq

/-- `title.trim().charAt(0).toLowerCase()`: the lowercased first character
of the trimmed title as a string, `""` for a blank title. -/
def firstLetter (t : String) : String :=
  match (jsTrim t).data with
  | [] => ""
  | c :: _ => String.mk [c.toLower]

/-- Append `p` to the bucket keyed `key`, creating the bucket at the end of
the key order when absent — JavaScript object insertion-order semantics of
`postsByFirstLetter` (convert.js lines 175-183). -/
def insertPost (key : String) (p : Post) : List (String × List Post) → List (String × List Post)
  | [] => [(key, [p])]
  | (k, ps) :: rest =>
    if k = key then (k, ps ++ [p]) :: rest else (k, ps) :: insertPost key p rest

/-- Group the posts by the first letter of their titles, preserving both
the within-bucket order and the first-occurrence key order. -/
def groupByFirstLetter (posts : List Post) : List (String × List Post) :=
  posts.foldl (fun gs p => insertPost (firstLetter p.title) p gs) []

/-- Insert a group into a list sorted by descending bucket size, after all
groups of at least its size: combined with `sortGroups` this is the stable
descending sort of `letterGroups` (convert.js lines 186-188). -/
def insertGroupDesc (x : String × List Post) : List (String × List Post) → List (String × List Post)
  | [] => [x]
  | y :: ys => if y.2.length < x.2.length then x :: y :: ys else y :: insertGroupDesc x ys

/-- Stable sort of the letter groups by descending bucket size. -/
def sortGroups (gs : List (String × List Post)) : List (String × List Post) :=
  gs.foldl (fun acc x => insertGroupDesc x acc) []

/-- Total number of records across all buckets. -/
def bucketsTotal (buckets : List (List Post)) : Nat :=
  (buckets.map List.length).sum

/-- The round-robin selection loop (convert.js lines 196-209), with an
explicit fuel counter: the source is a `while` loop whose termination is
itself under verification, so running out of fuel yields `none`.  Each
iteration re-checks `remaining > 0` and `idx < n`, pops the head of the
bucket at `idx` when nonempty, advances `idx` cyclically, and on completing
a full pass breaks when no posts are left anywhere. -/
def samplerLoop : Nat → List (List Post) → List Post → Nat → Nat →
    Option (List Post × List (List Post))
  | 0, _, _, _, _ => none
  | fuel + 1, buckets, acc, remaining, idx =>
    if remaining = 0 ∨ ¬ idx < buckets.length then some (acc, buckets)
    else
      match buckets.getD idx [] with
      | [] =>
        if (idx + 1) % buckets.length = 0 ∧ buckets.all List.isEmpty then some (acc, buckets)
        else samplerLoop fuel buckets acc remaining ((idx + 1) % buckets.length)
      | p :: rest =>
        if (idx + 1) % buckets.length = 0 ∧ (buckets.set idx rest).all List.isEmpty then
          some (acc ++ [p], buckets.set idx rest)
        else samplerLoop fuel (buckets.set idx rest) (acc ++ [p]) (remaining - 1)
          ((idx + 1) % buckets.length)

/-- Fuel that always suffices for `samplerLoop` (proved below). -/
def samplerFuel (buckets : List (List Post)) : Nat :=
  (bucketsTotal buckets + 1) * (2 * buckets.length + 1)

/-- The sampler branch of `processExport` (convert.js lines 171-212):
group, sort, and run the round-robin loop from index 0 with `limit` to
collect. -/
def samplerRun (limit : Nat) (posts : List Post) : Option (List Post) :=
  (samplerLoop (samplerFuel ((sortGroups (groupByFirstLetter posts)).map Prod.snd))
    ((sortGroups (groupByFirstLetter posts)).map Prod.snd) [] limit 0).map Prod.fst

/-- The selection step of `processExport`: the loop runs only under
`limit > 0 && limit < allPosts.length`; otherwise all posts are processed
unchanged. -/
def processExportSelection (limit : Nat) (posts : List Post) : Option (List Post) :=
  if 0 < limit ∧ limit < posts.length then samplerRun limit posts else some posts

/-- The selected posts (the fallback for exhausted fuel is never taken —
see the termination theorem). -/
def selectPosts (limit : Nat) (posts : List Post) : List Post :=
  (processExportSelection limit posts).getD posts

/-- The `--limit=N` value as the argument parser sees it: absent, parsed to
`NaN` (non-numeric), or parsed to an integer. -/
inductive LimitArg where
  | absent
  | nanValue
  | intValue (n : Int)
deriving DecidableEq

/-- `limit` after the command-line handling (convert.js lines 42-52): `0`
(no cap) when the flag is absent, non-numeric, or not positive. -/
def parseLimit : LimitArg → Nat
  | .absent => 0
  | .nanValue => 0
  | .intValue n => if n ≤ 0 then 0 else n.toNat

/-- One candidate of the description selection (convert.js lines 372-381)
as a JavaScript value: `post.description` is an xml2js string array, a
matching `wp:postmeta` entry stays a whole object. -/
inductive JsDescCand where
  | strArr (ss : List String)
  | metaObj (key : String) (value : String)
deriving DecidableEq

/-- The `length` property read by the sort comparator: array length for an
array, `undefined` for a plain object. -/
def jsLength : JsDescCand → Option Nat
  | .strArr ss => some ss.length
  | .metaObj _ _ => none

/-- The comparator `(a, b) => b.length - a.length`, with `NaN` results
(any comparison touching an object) treated as `+0` as `Array.prototype.sort`
prescribes. -/
def descCompare (a b : JsDescCand) : Int :=
  match jsLength a, jsLength b with
  | some la, some lb => (lb : Int) - la
  | _, _ => 0

/-- Stable insertion step for `jsSortCands`. -/
def insertCand (x : JsDescCand) : List JsDescCand → List JsDescCand
  | [] => [x]
  | y :: ys => if 0 < descCompare y x then x :: y :: ys else y :: insertCand x ys

/-- A stable sort under `descCompare`.  The source comparator is
inconsistent on mixed inputs, but every candidate list the converter builds
holds at most one array, so all comparisons return `0` and any stable sort
— V8's TimSort included — leaves the order unchanged. -/
def jsSortCands (l : List JsDescCand) : List JsDescCand :=
  l.foldl (fun acc x => insertCand x acc) []

/-- Joining a list of strings with commas (`Array.prototype.toString`). -/
def joinComma : List String → String
  | [] => ""
  | [s] => s
  | s :: rest => s ++ "," ++ joinComma rest

/-- Template-literal stringification of the selected candidate:
`undefined` when nothing was selected, comma-join for an array,
`[object Object]` for a plain object. -/
def jsToString : Option JsDescCand → String
  | none => "undefined"
  | some (.strArr ss) => joinComma ss
  | some (.metaObj _ _) => "[object Object]"

/-- One `wp:postmeta` entry (key and value, each a one-element xml2js array
in the source, modelled by their single strings). -/
structure PostMeta where
  key : String
  value : String
deriving DecidableEq

/-- The record fields `processPost` reads for the description and hero:
`post.description` (an xml2js string array when the element is present)
and the `wp:postmeta` list. -/
structure PostRecord where
  description : Option (List String)
  postmeta : List PostMeta
deriving DecidableEq

/-- The `description` value interpolated into the front matter
(convert.js lines 372-381 and 455): build the candidate list from
`post.description` and the *unprojected* meta objects whose key contains
`metadesc` or `description`, drop falsy entries, sort with the
length-difference comparator, take the first, stringify. -/
def descriptionWritten (post : PostRecord) : String :=
  let cands : List JsDescCand :=
    (match post.description with
      | some ss => [JsDescCand.strArr ss]
      | none => []) ++
    ((post.postmeta.filter
        (fun m => strContains m.key "metadesc" || strContains m.key "description")).map
      (fun m => JsDescCand.metaObj m.key m.value))
  jsToString (jsSortCands cands).head?

/-- The claim's reading of the same selection, kept for contrast: the
longest candidate among the record's description text and the *values* of
the marker-keyed metadata entries. -/
def specLongestDescription (post : PostRecord) : Option String :=
  let cands : List String :=
    (match post.description with
      | some ss => [joinComma ss]
      | none => []) ++
    ((post.postmeta.filter
        (fun m => strContains m.key "metadesc" || strContains m.key "description")).map
      (fun m => m.value))
  cands.foldl
    (fun best c =>
      match best with
      | none => some c
      | some b => if b.length < c.length then some c else best)
    none

/-- JavaScript `x || d` on an optional string: `d` when `x` is `undefined`
or empty. -/
def jsOrDefault (x : Option String) (d : String) : String :=
  match x with
  | none => d
  | some v => if v = "" then d else v

/-- The hero front-matter value (convert.js lines 408 and 470):
`images.find(img => !img.endsWith("gif")) || "../../../defaultHero.jpg"`. -/
def heroFrontmatter (images : List String) : String :=
  jsOrDefault (images.find? (fun img => !jsEndsWith img "gif")) "../../../defaultHero.jpg"

/-- The hero selection as the spec words it: the first localized asset in
the list that is not a GIF, or the fixed default asset path. -/
def specHeroOf (images : List String) : String :=
  match images.find? (fun img => !jsEndsWith img "gif") with
  | some h => h
  | none => "../../../defaultHero.jpg"

/-- The hero URL candidates from the metadata (convert.js lines 383-391):
values of `opengraph-image`/`twitter-image` keys that start with `http`. -/
def heroURLsOf (postmeta : List PostMeta) : List String :=
  ((postmeta.filter
      (fun m => strContains m.key "opengraph-image" || strContains m.key "twitter-image")).map
    (fun m => m.value)).filter (fun url => jsStartsWith url "http")

/-- The body after the hero pre-pass (convert.js lines 395-404): when a
hero URL exists, `processImage` runs on it first; the image list that call
returns is overwritten by the later `processImages` call. -/
def heroPassBody (net : Network) (postmeta : List PostMeta) (postData : Option String)
    (directory : String) : Option String :=
  match heroURLsOf postmeta with
  | [] => postData
  | url :: _ => (processImage net (some url) postData [] directory).postData

/-- The hero reference `processPost` writes for a record: hero pre-pass,
body scan, then `heroFrontmatter` over the scan's image list only. -/
def postHero (net : Network) (postmeta : List PostMeta) (postData : Option String)
    (directory : String) : String :=
  heroFrontmatter (processImages net (heroPassBody net postmeta postData directory) directory).images

/-- Placeholder used only to read the head of a bucket that is provably
nonempty. -/
def dummyPost : Post := ⟨""⟩

/-- Index of the first nonempty bucket of a list, if any. -/
def firstNonE : List (List Post) → Option Nat
  | [] => none
  | b :: bs => if b.isEmpty then (firstNonE bs).map (· + 1) else some 0

/-- Number of loop iterations from `idx` to the next event (a pop, or the
end-of-pass exit when everything is empty): the distance to the first
nonempty bucket in cyclic order from `idx`, or the distance to the wrap
when all buckets are empty. -/
def samplerDist (buckets : List (List Post)) (idx : Nat) : Nat :=
  match firstNonE (buckets.drop idx ++ buckets.take idx) with
  | some k => k
  | none => buckets.length - idx

/-- A strictly decreasing measure for the round-robin loop. -/
def samplerMeasure (buckets : List (List Post)) (idx : Nat) : Nat :=
  bucketsTotal buckets * (2 * buckets.length + 1) + samplerDist buckets idx

/-- A network on which every download fails. -/
def failNet : Network := fun _ => none

/-- A network serving exactly one image, `http://h/a.png`. -/
def c3net : Network := fun u => if u = "http://h/a.png" then some [42] else none

/-- PNG magic signature followed by one payload byte. -/
def pngBytes : Bytes := [0x89, 0x50, 0x4E, 0x47, 0x0D, 0x0A, 0x1A, 0x0A, 0]

/-- A network serving PNG bytes at a URL whose path ends in `.php`. -/
def c1net : Network := fun u => if u = "http://h/img.php" then some pngBytes else none

/-- A network serving exactly one image, `http://h/hero.png`. -/
def hero8net : Network := fun u => if u = "http://h/hero.png" then some [1, 2] else none

/-! ## Lemmas about `setDedup` -/

theorem foldl_setDedupStep_nodup (l : List String) :
    ∀ acc : List String, acc.Nodup → (l.foldl setDedupStep acc).Nodup := by
  induction l with
  | nil => intro acc h; exact h
  | cons a rest ih =>
    intro acc h
    simp only [List.foldl_cons]
    apply ih
    unfold setDedupStep
    by_cases hm : a ∈ acc
    · simpa [hm]
    · simp only [hm, if_false]
      rw [List.nodup_append]
      refine ⟨h, List.nodup_singleton a, ?_⟩
      intro x hx hx2
      rw [List.mem_singleton] at hx2
      exact hm (hx2 ▸ hx)

theorem mem_foldl_setDedupStep (l : List String) :
    ∀ (acc : List String) (x : String), x ∈ l.foldl setDedupStep acc ↔ x ∈ acc ∨ x ∈ l := by
  induction l with
  | nil => intro acc x; simp
  | cons a rest ih =>
    intro acc x
    simp only [List.foldl_cons, ih, setDedupStep]
    by_cases hm : a ∈ acc
    · simp only [hm, if_true, List.mem_cons]
      constructor
      · rintro (h | h)
        · exact Or.inl h
        · exact Or.inr (Or.inr h)
      · rintro (h | h | h)
        · exact Or.inl h
        · exact Or.inl (h ▸ hm)
        · exact Or.inr h
    · simp only [hm, if_false, List.mem_append, List.mem_singleton, List.mem_cons]
      tauto

theorem setDedup_nodup (l : List String) : (setDedup l).Nodup :=
  foldl_setDedupStep_nodup l [] List.nodup_nil

theorem mem_setDedup (l : List String) (x : String) : x ∈ setDedup l ↔ x ∈ l := by
  unfold setDedup
  rw [mem_foldl_setDedupStep]
  simp

theorem foldl_setDedupStep_of_subset (l : List String) :
    ∀ acc : List String, (∀ x ∈ l, x ∈ acc) → l.foldl setDedupStep acc = acc := by
  induction l with
  | nil => intro acc _; rfl
  | cons a rest ih =>
    intro acc h
    simp only [List.foldl_cons, setDedupStep, h a (by simp), if_true]
    exact ih acc (fun x hx => h x (by simp [hx]))

theorem foldl_setDedupStep_disjoint (l : List String) :
    ∀ acc : List String, l.Nodup → (∀ x ∈ l, x ∉ acc) → l.foldl setDedupStep acc = acc ++ l := by
  induction l with
  | nil => intro acc _ _; simp
  | cons a rest ih =>
    intro acc hnd hdis
    simp only [List.foldl_cons, setDedupStep, hdis a (by simp), if_false]
    rw [ih (acc ++ [a]) (List.Nodup.of_cons hnd)]
    · simp
    · intro x hx
      simp only [List.mem_append, List.mem_singleton]
      rintro (h | h)
      · exact hdis x (by simp [hx]) h
      · exact (List.Nodup.not_mem hnd) (h ▸ hx)

theorem setDedup_eq_self (l : List String) (h : l.Nodup) : setDedup l = l := by
  unfold setDedup
  simpa using foldl_setDedupStep_disjoint l [] h (by simp)

theorem setDedup_append_self (l : List String) (h : l.Nodup) : setDedup (l ++ l) = l := by
  unfold setDedup
  rw [List.foldl_append]
  have h1 : List.foldl setDedupStep [] l = l := setDedup_eq_self l h
  rw [h1]
  exact foldl_setDedupStep_of_subset l l (fun x hx => hx)

/-! ## Lemmas about `processImage` and the `processImages` loop -/

theorem processImage_fail (net : Network) (u : String) (pd : Option String)
    (imgs : List String) (dir : String) (hu : u ≠ "")
    (hf : downloadFile net (jsTrim (htmlDecode u)) = none) :
    processImage net (some u) pd imgs dir = ⟨pd, imgs, [jsTrim (htmlDecode u)], []⟩ := by
  unfold processImage
  simp only [hu, if_false, hf]

theorem processImage_images_shape (net : Network) (url : Option String) (pd : Option String)
    (imgs : List String) (dir : String) :
    (processImage net url pd imgs dir).images = imgs ∨
      ∃ nm, nm ≠ "" ∧ (processImage net url pd imgs dir).images = imgs ++ [nm] := by
  match url with
  | none => exact Or.inl rfl
  | some u =>
    by_cases hu : u = ""
    · left
      simp [processImage, hu]
    · cases hdl : downloadFile net (jsTrim (htmlDecode u)) with
      | none =>
        left
        rw [processImage_fail net u pd imgs dir hu hdl]
      | some buffer =>
        by_cases hb : pathBasename (urlPathname (jsTrim (htmlDecode u))) = ""
        · left
          unfold processImage
          simp only [hu, if_false, hdl, hb, if_true]
        · right
          refine ⟨pathBasename (urlPathname (jsTrim (htmlDecode u))), hb, ?_⟩
          unfold processImage
          simp only [hu, if_false, hdl, hb, if_false]

theorem processImagesLoop_cons (net : Network) (dir m : String) (rest : List String)
    (st : ImgResult) :
    processImagesLoop net dir (m :: rest) st =
      if jsTrim m = "" then processImagesLoop net dir rest st
      else
        processImagesLoop net dir rest
          ⟨(processImage net (some (jsTrim m)) st.postData st.images dir).postData,
            setDedup ((processImage net (some (jsTrim m)) st.postData st.images dir).images ++
              (processImage net (some (jsTrim m)) st.postData st.images dir).images),
            st.attempts ++ (processImage net (some (jsTrim m)) st.postData st.images dir).attempts,
            st.writes ++ (processImage net (some (jsTrim m)) st.postData st.images dir).writes⟩ :=
  rfl

theorem processImagesLoop_nodup (net : Network) (dir : String) (ms : List String) :
    ∀ st : ImgResult, st.images.Nodup → (processImagesLoop net dir ms st).images.Nodup := by
  induction ms with
  | nil => intro st h; exact h
  | cons m rest ih =>
    intro st h
    unfold processImagesLoop
    by_cases hm : jsTrim m = ""
    · simp only [hm, if_true]
      exact ih st h
    · simp only [hm, if_false]
      exact ih _ (setDedup_nodup _)

theorem processImagesLoop_images_ne (net : Network) (dir : String) (ms : List String) :
    ∀ st : ImgResult, (∀ x ∈ st.images, x ≠ "") →
      ∀ x ∈ (processImagesLoop net dir ms st).images, x ≠ "" := by
  induction ms with
  | nil => intro st h; exact h
  | cons m rest ih =>
    intro st h
    unfold processImagesLoop
    by_cases hm : jsTrim m = ""
    · simp only [hm, if_true]
      exact ih st h
    · simp only [hm, if_false]
      apply ih
      intro x hx
      rw [mem_setDedup] at hx
      rw [List.mem_append] at hx
      have hx2 : x ∈ (processImage net (some (jsTrim m)) st.postData st.images dir).images := by
        rcases hx with h1 | h1 <;> exact h1
      rcases processImage_images_shape net (some (jsTrim m)) st.postData st.images dir with
        hs | ⟨nm, hnm, hs⟩
      · exact h x (hs ▸ hx2)
      · rw [hs] at hx2
        rcases List.mem_append.mp hx2 with h2 | h2
        · exact h x h2
        · rw [List.mem_singleton] at h2
          exact h2 ▸ hnm

theorem processImagesLoop_all_fail (net : Network) (dir : String) (ms : List String)
    (hms : ∀ m ∈ ms, jsTrim m ≠ "" → downloadFile net (jsTrim (htmlDecode (jsTrim m))) = none) :
    ∀ st : ImgResult, st.images.Nodup →
      (processImagesLoop net dir ms st).postData = st.postData ∧
        (processImagesLoop net dir ms st).images = st.images := by
  induction ms with
  | nil => intro st _; exact ⟨rfl, rfl⟩
  | cons m rest ih =>
    intro st hnd
    unfold processImagesLoop
    by_cases hm : jsTrim m = ""
    · simp only [hm, if_true]
      exact ih (fun x hx => hms x (by simp [hx]) ) st hnd
    · simp only [hm, if_false]
      rw [processImage_fail net (jsTrim m) st.postData st.images dir hm
        (hms m (by simp) hm)]
      have hcollapse : setDedup (st.images ++ st.images) = st.images :=
        setDedup_append_self st.images hnd
      simp only [hcollapse]
      exact ih (fun x hx => hms x (by simp [hx])) ⟨st.postData, st.images, _, _⟩ hnd

/-- Any download of a URL that is not an absolute http(s) reference fails
on every network, without the oracle ever being consulted. -/
theorem downloadFile_of_not_remote (net : Network) (s : String)
    (h : isRemoteUrl s = false) : downloadFile net s = none := by
  unfold downloadFile
  rw [h]
  rfl

/-- On the all-failing network every download fails. -/
theorem downloadFile_failNet (s : String) : downloadFile failNet s = none := by
  unfold downloadFile failNet
  cases isRemoteUrl s <;> rfl

/-- No image name returned by `processImages` is the empty string. -/
theorem processImages_images_ne (net : Network) (pd : Option String) (dir : String) :
    ∀ x ∈ (processImages net pd dir).images, x ≠ "" := by
  match pd with
  | none => intro x hx; simp [processImages] at hx
  | some s =>
    by_cases hs : s = ""
    · intro x hx; simp [processImages, hs] at hx
    · unfold processImages
      simp only [hs, if_false]
      exact processImagesLoop_images_ne net dir (imgMatches s) ⟨some s, [], [], []⟩
        (by intro x hx; simp at hx)

/-- Claim C10: a `null`/`undefined` body or an empty-string body makes
`processImages` return the body unchanged together with an empty asset
list, attempting no download and writing no file. -/
theorem c10_theorem (net : Network) (dir : String) :
    processImages net none dir = ⟨none, [], [], []⟩ ∧
      processImages net (some "") dir = ⟨some "", [], [], []⟩ :=
  ⟨rfl, rfl⟩

/-- Claim C9: the asset-name list returned by `processImages` never contains a
duplicate entry: each loop iteration passes the accumulated list through
the deduplicating set. -/
theorem c9_theorem (net : Network) (pd : Option String) (dir : String) :
    ((processImages net pd dir).images).Nodup := by
  match pd with
  | none => exact List.nodup_nil
  | some s =>
    by_cases hs : s = ""
    · simp [processImages, hs]
    · unfold processImages
      simp only [hs, if_false]
      exact processImagesLoop_nodup net dir (imgMatches s) ⟨some s, [], [], []⟩ List.nodup_nil

/-- Claim C4: when the fetch of a candidate fails, `processImage` returns the
body and the asset list exactly as passed in, and the `processImages` loop
carries on with the remaining matches from that unchanged state (only the
attempt trace records the failed fetch). -/
theorem c4_theorem :
    (∀ (net : Network) (u : String) (pd : Option String) (imgs : List String) (dir : String),
        u ≠ "" → downloadFile net (jsTrim (htmlDecode u)) = none →
        (processImage net (some u) pd imgs dir).postData = pd ∧
          (processImage net (some u) pd imgs dir).images = imgs) ∧
    (∀ (net : Network) (dir m : String) (rest : List String) (st : ImgResult),
        jsTrim m ≠ "" → downloadFile net (jsTrim (htmlDecode (jsTrim m))) = none →
        st.images.Nodup →
        processImagesLoop net dir (m :: rest) st =
          processImagesLoop net dir rest
            ⟨st.postData, st.images, st.attempts ++ [jsTrim (htmlDecode (jsTrim m))],
              st.writes⟩) := by
  constructor
  · intro net u pd imgs dir hu hf
    rw [processImage_fail net u pd imgs dir hu hf]
    exact ⟨rfl, rfl⟩
  · intro net dir m rest st hm hf hnd
    rw [processImagesLoop_cons]
    simp only [hm, if_false]
    rw [processImage_fail net (jsTrim m) st.postData st.images dir hm hf]
    simp only [setDedup_append_self st.images hnd, List.append_nil]

/-- Closed instance of `c4_theorem`: a failing fetch leaves a concrete
body and image list untouched and the loop proceeds to the next match. -/
theorem c4_witness :
    ("http://h/x.png" : String) ≠ "" ∧
      downloadFile failNet (jsTrim (htmlDecode "http://h/x.png")) = none ∧
      ((processImage failNet (some "http://h/x.png") (some "body") ["i.png"] "d").postData =
          some "body" ∧
        (processImage failNet (some "http://h/x.png") (some "body") ["i.png"] "d").images =
          ["i.png"]) ∧
      processImagesLoop failNet "d" ["http://h/x.png"] ⟨some "body", ["i.png"], [], []⟩ =
        processImagesLoop failNet "d" []
          ⟨some "body", ["i.png"], [] ++ [jsTrim (htmlDecode (jsTrim "http://h/x.png"))], []⟩ :=
  ⟨by decide, downloadFile_failNet _,
    c4_theorem.1 failNet "http://h/x.png" (some "body") ["i.png"] "d" (by decide)
      (downloadFile_failNet _),
    c4_theorem.2 failNet "d" "http://h/x.png" [] ⟨some "body", ["i.png"], [], []⟩ (by decide)
      (downloadFile_failNet _) (by decide)⟩

/-- Claim C3 fails as stated: localizing a body rewrites the image reference to
a relative path, and re-running `processImages` on that output does hand
the already-relative reference `./d/a.png` to `downloadFile` — there is no
well-formedness check before the fetch, so a download is attempted. -/
theorem c3_counterexample :
    (processImages c3net (some "<img src=\"http://h/a.png\">") "d").postData =
        some "<img src=\"./d/a.png\">" ∧
      (processImages c3net (some "<img src=\"./d/a.png\">") "d").attempts =
        ["./d/a.png"] := by decide

/-- Claim C3 amended: the attempted fetch of a non-remote (e.g. already-relative)
reference always fails without touching the network, and a run in which
every candidate's fetch fails — in particular a re-run on output whose
references are all local — returns the body unchanged with an empty asset
list. -/
theorem c3_theorem :
    (∀ (net : Network) (s : String), isRemoteUrl s = false → downloadFile net s = none) ∧
    (∀ (net : Network) (pd dir : String),
        (∀ m ∈ imgMatches pd, jsTrim m ≠ "" →
          downloadFile net (jsTrim (htmlDecode (jsTrim m))) = none) →
        (processImages net (some pd) dir).postData = some pd ∧
          (processImages net (some pd) dir).images = []) := by
  constructor
  · exact downloadFile_of_not_remote
  · intro net pd dir h
    by_cases hpd : pd = ""
    · subst hpd
      exact ⟨rfl, rfl⟩
    · unfold processImages
      simp only [hpd, if_false]
      exact processImagesLoop_all_fail net dir (imgMatches pd) h ⟨some pd, [], [], []⟩
        List.nodup_nil

/-- Closed instance of `c3_theorem` on the localized output body. -/
theorem c3_witness :
    isRemoteUrl "./d/a.png" = false ∧
      downloadFile failNet "./d/a.png" = none ∧
      (processImages failNet (some "<img src=\"./d/a.png\">") "d").postData =
        some "<img src=\"./d/a.png\">" :=
  ⟨by decide, c3_theorem.1 failNet "./d/a.png" (by decide),
    (c3_theorem.2 failNet "<img src=\"./d/a.png\">" "d"
      (fun m _ _ => downloadFile_failNet _)).1⟩

/-- Claim C1 fails as stated: the saved name keeps the URL's `.php` suffix even
though the downloaded bytes are PNG; the magic-signature renaming lives
only in the never-called `constructImageName`, which would have produced
`img.png`. -/
theorem c1_counterexample :
    (processImage c1net (some "http://h/img.php")
        (some "<img src=\"http://h/img.php\">") [] "d").images = ["img.php"] ∧
      constructImageName "/img.php" pngBytes = some "img.png" ∧
      jsEndsWith "img.php" ".png" = false := by decide

/-- Claim C1 amended: on a successful download the assigned local filename is the
basename of the URL's pathname, extension included, taken from the URL and
not from the bytes' magic signature; the bytes are written under that
name. -/
theorem c1_theorem (net : Network) (u : String) (pd : Option String) (imgs : List String)
    (dir : String) (buffer : Bytes) (hu : u ≠ "")
    (hdl : downloadFile net (jsTrim (htmlDecode u)) = some buffer)
    (hb : pathBasename (urlPathname (jsTrim (htmlDecode u))) ≠ "") :
    (processImage net (some u) pd imgs dir).images =
        imgs ++ [pathBasename (urlPathname (jsTrim (htmlDecode u)))] ∧
      (processImage net (some u) pd imgs dir).writes =
        [(dir ++ "/" ++ pathBasename (urlPathname (jsTrim (htmlDecode u))), buffer)] := by
  unfold processImage
  simp [hu, hdl, hb]

/-- Closed instance of `c1_theorem`: the PNG served at `…/img.php` is
stored as `img.php`. -/
theorem c1_witness :
    downloadFile c1net (jsTrim (htmlDecode "http://h/img.php")) = some pngBytes ∧
      (processImage c1net (some "http://h/img.php") none [] "d").images =
        [pathBasename (urlPathname (jsTrim (htmlDecode "http://h/img.php")))] ∧
      (processImage c1net (some "http://h/img.php") none [] "d").writes =
        [("d" ++ "/" ++ pathBasename (urlPathname (jsTrim (htmlDecode "http://h/img.php"))),
          pngBytes)] :=
  ⟨by decide,
    c1_theorem c1net "http://h/img.php" none [] "d" pngBytes (by decide) (by decide) (by decide)⟩

/-- Claim C5: the source contradicts its own comment "takes the longest
description candidate" — the metadata candidates are whole objects, never
projected to their values, and the length-difference comparator yields
`NaN` on them, so the written description is just the first truthy
candidate: the record's own description text when present (here the short
`"a"`, not the longer metadata value), and the stringified object
`[object Object]` otherwise. -/
theorem c5_theorem :
    descriptionWritten ⟨some ["a"], [⟨"metadesc", "a-much-longer-description"⟩]⟩ = "a" ∧
      specLongestDescription ⟨some ["a"], [⟨"metadesc", "a-much-longer-description"⟩]⟩ =
        some "a-much-longer-description" ∧
      descriptionWritten ⟨none, [⟨"metadesc", "zzz"⟩]⟩ = "[object Object]" := by decide

/-- The falsy-default hero selection agrees with the spec-worded "first
non-GIF or default" selection whenever no asset name is empty. -/
theorem heroFrontmatter_eq_spec (images : List String) (h : ∀ x ∈ images, x ≠ "") :
    heroFrontmatter images = specHeroOf images := by
  unfold heroFrontmatter specHeroOf
  cases hf : images.find? (fun img => !jsEndsWith img "gif") with
  | none => rfl
  | some v =>
    have hv : v ∈ images := List.mem_of_find?_eq_some hf
    simp [jsOrDefault, h v hv]

/-- Claim C8 fails as stated: a record whose hero metadata image downloads
successfully but whose body contains no image tag has a non-GIF localized
asset (`hero.png`), yet the front matter falls back to the default — the
body scan resets the asset list and discards the hero asset. -/
theorem c8_counterexample :
    postHero hero8net [⟨"opengraph-image", "http://h/hero.png"⟩] (some "hello") "d" =
        "../../../defaultHero.jpg" ∧
      (processImage hero8net (some "http://h/hero.png") (some "hello") [] "d").images =
        ["hero.png"] ∧
      jsEndsWith "hero.png" "gif" = false := by decide

/-- Claim C8 amended: the hero reference is the first non-GIF asset of the list
returned by the body scan (`processImages`) — the separately localized
hero-metadata asset is not considered — and the fixed default asset path
when that list has no such entry. -/
theorem c8_theorem (net : Network) (postmeta : List PostMeta) (pd : Option String)
    (dir : String) :
    postHero net postmeta pd dir =
      specHeroOf (processImages net (heroPassBody net postmeta pd dir) dir).images := by
  unfold postHero
  exact heroFrontmatter_eq_spec _ (processImages_images_ne net _ dir)

/-! ## Sampler lemmas -/

/-- Claim C6: an absent, non-numeric, non-positive, or too-large cap makes the
selection return the full record sequence unchanged, in original order. -/
theorem c6_theorem (posts : List Post) (a : LimitArg)
    (h : a = .absent ∨ a = .nanValue ∨ (∃ n : Int, n ≤ 0 ∧ a = .intValue n) ∨
      posts.length ≤ parseLimit a) :
    selectPosts (parseLimit a) posts = posts := by
  have hz : parseLimit a = 0 ∨ posts.length ≤ parseLimit a := by
    rcases h with h | h | ⟨n, hn, h⟩ | h
    · left; rw [h]; rfl
    · left; rw [h]; rfl
    · left; rw [h]; simp [parseLimit, hn]
    · right; exact h
  unfold selectPosts processExportSelection
  have hneg : ¬ (0 < parseLimit a ∧ parseLimit a < posts.length) := by omega
  rw [if_neg hneg]
  rfl

/-- Closed instance of `c6_theorem` at the flag `--limit=-3`. -/
theorem c6_witness :
    (LimitArg.intValue (-3) = LimitArg.absent ∨ LimitArg.intValue (-3) = LimitArg.nanValue ∨
        (∃ n : Int, n ≤ 0 ∧ LimitArg.intValue (-3) = LimitArg.intValue n) ∨
        ([⟨"a"⟩, ⟨"b"⟩] : List Post).length ≤ parseLimit (LimitArg.intValue (-3))) ∧
      selectPosts (parseLimit (LimitArg.intValue (-3))) [⟨"a"⟩, ⟨"b"⟩] = [⟨"a"⟩, ⟨"b"⟩] :=
  ⟨Or.inr (Or.inr (Or.inl ⟨-3, by decide, rfl⟩)),
    c6_theorem [⟨"a"⟩, ⟨"b"⟩] (LimitArg.intValue (-3))
      (Or.inr (Or.inr (Or.inl ⟨-3, by decide, rfl⟩)))⟩

theorem firstNonE_cons (b : List Post) (bs : List (List Post)) :
    firstNonE (b :: bs) =
      if b.isEmpty then (firstNonE bs).map (· + 1) else some 0 := rfl

theorem firstNonE_append_some (l1 l2 : List (List Post)) (k : Nat)
    (h : firstNonE l1 = some k) : firstNonE (l1 ++ l2) = some k := by
  induction l1 generalizing k with
  | nil => simp [firstNonE] at h
  | cons b bs ih =>
    rw [List.cons_append, firstNonE_cons b (bs ++ l2)]
    rw [firstNonE_cons b bs] at h
    by_cases hb : b.isEmpty
    · rw [if_pos hb] at h ⊢
      cases hf : firstNonE bs with
      | none => rw [hf] at h; simp at h
      | some k2 =>
        rw [hf] at h
        rw [ih k2 hf]
        simpa using h
    · rw [if_neg hb] at h ⊢
      exact h

theorem firstNonE_append_none (l1 l2 : List (List Post)) (h : firstNonE l1 = none) :
    firstNonE (l1 ++ l2) = (firstNonE l2).map (· + l1.length) := by
  induction l1 with
  | nil =>
    simp only [List.nil_append, List.length_nil]
    cases firstNonE l2 <;> simp
  | cons b bs ih =>
    rw [List.cons_append, firstNonE_cons b (bs ++ l2)]
    rw [firstNonE_cons b bs] at h
    by_cases hb : b.isEmpty
    · rw [if_pos hb] at h ⊢
      have hf : firstNonE bs = none := by
        cases hf2 : firstNonE bs with
        | none => rfl
        | some k => rw [hf2] at h; simp at h
      rw [ih hf]
      cases firstNonE l2 with
      | none => simp
      | some k =>
        simp only [Option.map_some', Option.some.injEq, List.length_cons]
        omega
    · rw [if_neg hb] at h
      simp at h

theorem firstNonE_none_iff (l : List (List Post)) :
    firstNonE l = none ↔ ∀ b ∈ l, b.isEmpty := by
  induction l with
  | nil => simp [firstNonE]
  | cons b bs ih =>
    rw [firstNonE_cons b bs]
    by_cases hb : b.isEmpty
    · rw [if_pos hb]
      constructor
      · intro h x hx
        have hf : firstNonE bs = none := by
          cases hf2 : firstNonE bs with
          | none => rfl
          | some k => rw [hf2] at h; simp at h
        rcases List.mem_cons.mp hx with h1 | h1
        · exact h1 ▸ hb
        · exact ih.mp hf x h1
      · intro h
        rw [ih.mpr (fun x hx => h x (by simp [hx]))]
        rfl
    · rw [if_neg hb]
      constructor
      · intro h; simp at h
      · intro h; exact absurd (h b (by simp)) hb

theorem firstNonE_lt_length (l : List (List Post)) (k : Nat) (h : firstNonE l = some k) :
    k < l.length := by
  induction l generalizing k with
  | nil => simp [firstNonE] at h
  | cons b bs ih =>
    rw [firstNonE_cons b bs] at h
    by_cases hb : b.isEmpty
    · rw [if_pos hb] at h
      cases hf : firstNonE bs with
      | none => rw [hf] at h; simp at h
      | some k2 =>
        rw [hf] at h
        have hk2 := ih k2 hf
        have hk : k2 + 1 = k := by simpa using h
        rw [List.length_cons]
        omega
    · rw [if_neg hb] at h
      have hk : k = 0 := by simpa using h.symm
      rw [List.length_cons]
      omega

theorem samplerDist_le (buckets : List (List Post)) (idx : Nat) :
    samplerDist buckets idx ≤ 2 * buckets.length := by
  unfold samplerDist
  cases hf : firstNonE (buckets.drop idx ++ buckets.take idx) with
  | none =>
    show buckets.length - idx ≤ 2 * buckets.length
    omega
  | some k =>
    have hk := firstNonE_lt_length _ k hf
    rw [List.length_append, List.length_drop, List.length_take] at hk
    show k ≤ 2 * buckets.length
    omega

theorem bucketsTotal_cons (b : List Post) (bs : List (List Post)) :
    bucketsTotal (b :: bs) = b.length + bucketsTotal bs := by
  simp [bucketsTotal]

theorem bucketsTotal_set (buckets : List (List Post)) (idx : Nat) (p : Post)
    (rest : List Post) :
    ∀ (_ : buckets.getD idx [] = p :: rest) (_ : idx < buckets.length),
      bucketsTotal (buckets.set idx rest) + 1 = bucketsTotal buckets := by
  induction buckets generalizing idx with
  | nil => intro _ hidx; simp at hidx
  | cons b bs ih =>
    intro h hidx
    cases idx with
    | zero =>
      have hb : b = p :: rest := by simpa using h
      subst hb
      rw [show ((p :: rest) :: bs).set 0 rest = rest :: bs from rfl]
      rw [bucketsTotal_cons, bucketsTotal_cons, List.length_cons]
      omega
    | succ n =>
      have h2 : bs.getD n [] = p :: rest := by simpa using h
      have hidx2 : n < bs.length := by simpa using hidx
      have hrec := ih n h2 hidx2
      rw [show (b :: bs).set (n + 1) rest = b :: bs.set n rest from rfl]
      rw [bucketsTotal_cons, bucketsTotal_cons]
      omega

theorem all_isEmpty_iff (buckets : List (List Post)) :
    buckets.all List.isEmpty = true ↔ bucketsTotal buckets = 0 := by
  induction buckets with
  | nil => simp [bucketsTotal]
  | cons b bs ih =>
    rw [List.all_cons, bucketsTotal_cons, Bool.and_eq_true, ih]
    constructor
    · rintro ⟨h1, h2⟩
      have hb : b.length = 0 := by
        cases b with
        | nil => rfl
        | cons x xs => simp [List.isEmpty] at h1
      omega
    · intro h
      have hb : b = [] := List.length_eq_zero.mp (by omega)
      subst hb
      exact ⟨rfl, by omega⟩

theorem drop_set_succ {α : Type} (l : List α) (i : Nat) (a : α) :
    (l.set i a).drop (i + 1) = l.drop (i + 1) := by
  induction l generalizing i with
  | nil => rfl
  | cons b bs ih =>
    cases i with
    | zero => rfl
    | succ n =>
      rw [show (b :: bs).set (n + 1) a = b :: bs.set n a from rfl]
      rw [List.drop_succ_cons, List.drop_succ_cons]
      exact ih n

theorem samplerDist_step (buckets : List (List Post)) (idx : Nat)
    (hidx : idx + 1 < buckets.length) (hb : buckets.getD idx [] = []) :
    samplerDist buckets (idx + 1) + 1 = samplerDist buckets idx := by
  have hlt : idx < buckets.length := by omega
  have hget : buckets[idx] = [] := by
    rw [← List.getD_eq_getElem buckets [] hlt]; exact hb
  have hdrop : buckets.drop idx = [] :: buckets.drop (idx + 1) := by
    rw [List.drop_eq_getElem_cons hlt, hget]
  have htake : buckets.take (idx + 1) = buckets.take idx ++ [([] : List Post)] := by
    rw [List.take_succ, List.getElem?_eq_getElem hlt, hget]
    rfl
  unfold samplerDist
  rw [hdrop, htake, ← List.append_assoc, List.cons_append, firstNonE_cons]
  rw [if_pos (show ([] : List Post).isEmpty = true from rfl)]
  cases hf : firstNonE (buckets.drop (idx + 1) ++ buckets.take idx) with
  | some k =>
    rw [firstNonE_append_some _ [[]] k hf]
    simp
  | none =>
    rw [firstNonE_append_none _ [[]] hf]
    rw [show firstNonE [([] : List Post)] = none from rfl]
    simp only [Option.map_none']
    show buckets.length - (idx + 1) + 1 = buckets.length - idx
    omega

theorem samplerDist_wrap (buckets : List (List Post)) (hn : 0 < buckets.length)
    (hb : buckets.getD (buckets.length - 1) [] = [])
    (hne : ¬ buckets.all List.isEmpty = true) :
    samplerDist buckets 0 + 1 = samplerDist buckets (buckets.length - 1) := by
  have hlt : buckets.length - 1 < buckets.length := by omega
  have hget : buckets[buckets.length - 1] = [] := by
    rw [← List.getD_eq_getElem buckets [] hlt]; exact hb
  have hdrop : buckets.drop (buckets.length - 1) = [([] : List Post)] := by
    rw [List.drop_eq_getElem_cons hlt, hget,
      show buckets.length - 1 + 1 = buckets.length from by omega, List.drop_length]
  have htake1 : buckets.take (buckets.length - 1 + 1) =
      buckets.take (buckets.length - 1) ++ [([] : List Post)] := by
    rw [List.take_succ, List.getElem?_eq_getElem hlt, hget]
    rfl
  have htake : buckets = buckets.take (buckets.length - 1) ++ [([] : List Post)] := by
    calc buckets = buckets.take buckets.length := (List.take_length buckets).symm
      _ = buckets.take (buckets.length - 1 + 1) := by
          rw [show buckets.length - 1 + 1 = buckets.length from by omega]
      _ = buckets.take (buckets.length - 1) ++ [([] : List Post)] := htake1
  have hsome : ∃ k, firstNonE buckets = some k := by
    cases hf : firstNonE buckets with
    | none =>
      exfalso
      apply hne
      rw [List.all_eq_true]
      exact (firstNonE_none_iff buckets).mp hf
    | some k => exact ⟨k, rfl⟩
  obtain ⟨k, hk⟩ := hsome
  have hkt : firstNonE (buckets.take (buckets.length - 1)) = some k := by
    cases hft : firstNonE (buckets.take (buckets.length - 1)) with
    | none =>
      have h2 := firstNonE_append_none (buckets.take (buckets.length - 1)) [[]] hft
      rw [← htake, hk, show firstNonE [([] : List Post)] = none from rfl] at h2
      simp at h2
    | some k2 =>
      have h2 := firstNonE_append_some (buckets.take (buckets.length - 1)) [[]] k2 hft
      rw [← htake, hk] at h2
      simp at h2
      rw [h2]
  unfold samplerDist
  rw [hdrop, List.drop_zero, List.take_zero, List.append_nil, hk]
  rw [show ([([] : List Post)] ++ buckets.take (buckets.length - 1)) =
    [] :: buckets.take (buckets.length - 1) from rfl]
  rw [firstNonE_cons, if_pos (show ([] : List Post).isEmpty = true from rfl), hkt]
  simp

theorem samplerMeasure_lt_fuel (buckets : List (List Post)) (idx : Nat) :
    samplerMeasure buckets idx < samplerFuel buckets := by
  unfold samplerMeasure samplerFuel
  have h := samplerDist_le buckets idx
  rw [Nat.add_mul, Nat.one_mul]
  omega

theorem samplerLoop_some (fuel : Nat) :
    ∀ (buckets : List (List Post)) (acc : List Post) (remaining idx : Nat),
      samplerMeasure buckets idx < fuel →
      (samplerLoop fuel buckets acc remaining idx).isSome := by
  induction fuel with
  | zero => intro _ _ _ _ h; omega
  | succ fuel ih =>
    intro buckets acc remaining idx hm
    unfold samplerLoop
    by_cases hexit : remaining = 0 ∨ ¬ idx < buckets.length
    · rw [if_pos hexit]
      rfl
    · rw [if_neg hexit]
      have hr : remaining ≠ 0 := fun h => hexit (Or.inl h)
      have hidx : idx < buckets.length := by
        by_contra h
        exact hexit (Or.inr h)
      have hn : 0 < buckets.length := by omega
      split
      · rename_i hbe
        by_cases hw : (idx + 1) % buckets.length = 0 ∧ buckets.all List.isEmpty
        · rw [if_pos hw]
          rfl
        · rw [if_neg hw]
          apply ih
          by_cases hcase : idx + 1 < buckets.length
          · rw [Nat.mod_eq_of_lt hcase]
            have hstep := samplerDist_step buckets idx hcase hbe
            unfold samplerMeasure at hm ⊢
            omega
          · have hidx1 : idx + 1 = buckets.length := by omega
            have hmod : (idx + 1) % buckets.length = 0 := by
              rw [hidx1]; exact Nat.mod_self _
            rw [hmod]
            have hne : ¬ buckets.all List.isEmpty = true := fun hall => hw ⟨hmod, hall⟩
            have hlast : buckets.getD (buckets.length - 1) [] = [] := by
              rw [show buckets.length - 1 = idx from by omega]; exact hbe
            have hstep := samplerDist_wrap buckets hn hlast hne
            rw [show buckets.length - 1 = idx from by omega] at hstep
            unfold samplerMeasure at hm ⊢
            omega
      · rename_i p rest hbe
        by_cases hw : (idx + 1) % buckets.length = 0 ∧ (buckets.set idx rest).all List.isEmpty
        · rw [if_pos hw]
          rfl
        · rw [if_neg hw]
          apply ih
          have htot := bucketsTotal_set buckets idx p rest hbe hidx
          have hlen : (buckets.set idx rest).length = buckets.length :=
            List.length_set buckets idx rest
          have hdist := samplerDist_le (buckets.set idx rest) ((idx + 1) % buckets.length)
          unfold samplerMeasure at hm ⊢
          rw [hlen] at hdist ⊢
          rw [← htot, Nat.add_mul, Nat.one_mul] at hm
          omega

theorem samplerLoop_prefixMono (fuel : Nat) :
    ∀ (buckets : List (List Post)) (acc : List Post) (remaining idx : Nat)
      (acc2 : List Post) (b2 : List (List Post)),
      samplerLoop fuel buckets acc remaining idx = some (acc2, b2) → acc <+: acc2 := by
  induction fuel with
  | zero => intro buckets acc remaining idx acc2 b2 h; simp [samplerLoop] at h
  | succ fuel ih =>
    intro buckets acc remaining idx acc2 b2 h
    unfold samplerLoop at h
    by_cases hexit : remaining = 0 ∨ ¬ idx < buckets.length
    · rw [if_pos hexit] at h
      simp only [Option.some.injEq, Prod.mk.injEq] at h
      obtain ⟨h1, _⟩ := h
      subst h1
      exact List.prefix_refl acc
    · rw [if_neg hexit] at h
      split at h
      · split at h
        · simp only [Option.some.injEq, Prod.mk.injEq] at h
          obtain ⟨h1, _⟩ := h
          subst h1
          exact List.prefix_refl acc
        · exact ih _ _ _ _ _ _ h
      · rename_i p rest hbe
        split at h
        · simp only [Option.some.injEq, Prod.mk.injEq] at h
          obtain ⟨h1, _⟩ := h
          subst h1
          exact List.prefix_append acc [p]
        · exact (List.prefix_append acc [p]).trans (ih _ _ _ _ _ _ h)

theorem samplerLoop_count (fuel : Nat) :
    ∀ (buckets : List (List Post)) (acc : List Post) (remaining idx : Nat)
      (acc2 : List Post) (b2 : List (List Post)),
      idx < buckets.length →
      samplerLoop fuel buckets acc remaining idx = some (acc2, b2) →
      acc2.length = acc.length + min remaining (bucketsTotal buckets) := by
  induction fuel with
  | zero => intro buckets acc remaining idx acc2 b2 _ h; simp [samplerLoop] at h
  | succ fuel ih =>
    intro buckets acc remaining idx acc2 b2 hidx h
    unfold samplerLoop at h
    by_cases hr : remaining = 0
    · rw [if_pos (Or.inl hr)] at h
      simp only [Option.some.injEq, Prod.mk.injEq] at h
      obtain ⟨h1, _⟩ := h
      subst h1
      rw [hr]
      simp
    · rw [if_neg (by push_neg; exact ⟨hr, hidx⟩)] at h
      have hn : 0 < buckets.length := by omega
      split at h
      · rename_i hbe
        split at h
        · rename_i hw
          simp only [Option.some.injEq, Prod.mk.injEq] at h
          obtain ⟨h1, _⟩ := h
          subst h1
          have htot : bucketsTotal buckets = 0 := (all_isEmpty_iff buckets).mp hw.2
          rw [htot]
          simp
        · exact ih _ _ _ _ _ _ (Nat.mod_lt _ hn) h
      · rename_i p rest hbe
        have htot := bucketsTotal_set buckets idx p rest hbe hidx
        split at h
        · rename_i hw
          simp only [Option.some.injEq, Prod.mk.injEq] at h
          obtain ⟨h1, _⟩ := h
          subst h1
          have htot2 : bucketsTotal (buckets.set idx rest) = 0 :=
            (all_isEmpty_iff _).mp hw.2
          rw [List.length_append]
          simp only [List.length_cons, List.length_nil]
          omega
        · have hlen : (buckets.set idx rest).length = buckets.length :=
            List.length_set buckets idx rest
          have hrec := ih _ _ _ _ _ _ (by rw [hlen]; exact Nat.mod_lt _ hn) h
          rw [hrec, List.length_append]
          simp only [List.length_cons, List.length_nil]
          omega

theorem samplerLoop_firstPass (fuel : Nat) :
    ∀ (buckets : List (List Post)) (acc : List Post) (remaining idx : Nat)
      (acc2 : List Post) (b2 : List (List Post)),
      idx < buckets.length →
      (∀ j, idx ≤ j → j < buckets.length → buckets.getD j [] ≠ []) →
      samplerLoop fuel buckets acc remaining idx = some (acc2, b2) →
      (acc ++ ((buckets.drop idx).take (min remaining (buckets.length - idx))).map
          (fun b => b.headD dummyPost)) <+: acc2 := by
  induction fuel with
  | zero => intro buckets acc remaining idx acc2 b2 _ _ h; simp [samplerLoop] at h
  | succ fuel ih =>
    intro buckets acc remaining idx acc2 b2 hidx hne h
    unfold samplerLoop at h
    by_cases hr : remaining = 0
    · rw [if_pos (Or.inl hr)] at h
      simp only [Option.some.injEq, Prod.mk.injEq] at h
      obtain ⟨h1, _⟩ := h
      subst h1
      rw [hr]
      simp only [Nat.zero_min, List.take_zero, List.map_nil, List.append_nil]
      exact List.prefix_refl acc
    · rw [if_neg (by push_neg; exact ⟨hr, hidx⟩)] at h
      have hn : 0 < buckets.length := by omega
      split at h
      · rename_i hbe
        exact absurd hbe (hne idx le_rfl hidx)
      · rename_i p rest hbe
        have hget : buckets[idx] = p :: rest := by
          rw [← List.getD_eq_getElem buckets [] hidx]; exact hbe
        have hdrop : buckets.drop idx = (p :: rest) :: buckets.drop (idx + 1) := by
          rw [List.drop_eq_getElem_cons hidx, hget]
        have hmin1 : 1 ≤ min remaining (buckets.length - idx) := by omega
        have hheads :
            ((buckets.drop idx).take (min remaining (buckets.length - idx))).map
                (fun b => b.headD dummyPost) =
              p :: ((buckets.drop (idx + 1)).take
                  (min remaining (buckets.length - idx) - 1)).map
                (fun b => b.headD dummyPost) := by
          conv_lhs =>
            rw [hdrop, show min remaining (buckets.length - idx) =
              (min remaining (buckets.length - idx) - 1) + 1 from by omega]
          rw [List.take_succ_cons, List.map_cons]
          rfl
        rw [hheads, show acc ++ p :: ((buckets.drop (idx + 1)).take
            (min remaining (buckets.length - idx) - 1)).map (fun b => b.headD dummyPost) =
          (acc ++ [p]) ++ ((buckets.drop (idx + 1)).take
            (min remaining (buckets.length - idx) - 1)).map (fun b => b.headD dummyPost)
          from by simp]
        split at h
        · rename_i hw
          obtain ⟨hw1, _⟩ := hw
          have hidx1 : idx + 1 = buckets.length := by
            rcases Nat.lt_or_ge (idx + 1) buckets.length with hlt2 | hge
            · rw [Nat.mod_eq_of_lt hlt2] at hw1; omega
            · omega
          simp only [Option.some.injEq, Prod.mk.injEq] at h
          obtain ⟨h1, _⟩ := h
          subst h1
          rw [show min remaining (buckets.length - idx) - 1 = 0 from by omega,
            List.take_zero, List.map_nil, List.append_nil]
        · by_cases hcase : idx + 1 < buckets.length
          · rw [Nat.mod_eq_of_lt hcase] at h
            have hlen : (buckets.set idx rest).length = buckets.length :=
              List.length_set buckets idx rest
            have hne2 : ∀ j, idx + 1 ≤ j → j < (buckets.set idx rest).length →
                (buckets.set idx rest).getD j [] ≠ [] := by
              intro j hj1 hj2
              rw [hlen] at hj2
              rw [List.getD_eq_getElem _ [] (by rw [hlen]; exact hj2)]
              rw [List.getElem_set_ne (show idx ≠ j from by omega)]
              rw [← List.getD_eq_getElem buckets [] hj2]
              exact hne j (by omega) hj2
            have hrec := ih (buckets.set idx rest) (acc ++ [p]) (remaining - 1) (idx + 1)
              acc2 b2 (by rw [hlen]; exact hcase) hne2 h
            rw [drop_set_succ, hlen] at hrec
            rw [show min (remaining - 1) (buckets.length - (idx + 1)) =
              min remaining (buckets.length - idx) - 1 from by omega] at hrec
            exact hrec
          · rw [show min remaining (buckets.length - idx) - 1 = 0 from by omega,
              List.take_zero, List.map_nil, List.append_nil]
            exact samplerLoop_prefixMono fuel _ _ _ _ _ _ h

/-- Claim C7: the round-robin selection loop always terminates — with the stated
fuel the loop returns a result from any state, in particular when every
bucket is or becomes empty (the end-of-pass check exits a pass that removed
nothing), and the selection step of `processExport` always produces a
selection. -/
theorem c7_theorem :
    (∀ (buckets : List (List Post)) (acc : List Post) (remaining idx : Nat),
        (samplerLoop (samplerMeasure buckets idx + 1) buckets acc remaining idx).isSome) ∧
      (∀ (limit : Nat) (posts : List Post), (processExportSelection limit posts).isSome) := by
  constructor
  · intro buckets acc remaining idx
    exact samplerLoop_some _ buckets acc remaining idx (Nat.lt_succ_self _)
  · intro limit posts
    unfold processExportSelection
    by_cases h : 0 < limit ∧ limit < posts.length
    · rw [if_pos h]
      unfold samplerRun
      have hs := samplerLoop_some
        (samplerFuel ((sortGroups (groupByFirstLetter posts)).map Prod.snd))
        ((sortGroups (groupByFirstLetter posts)).map Prod.snd) [] limit 0
        (samplerMeasure_lt_fuel _ 0)
      obtain ⟨pair, hp⟩ := Option.isSome_iff_exists.mp hs
      rw [hp]
      rfl
    · rw [if_neg h]
      rfl

theorem insertPost_snd_ne (key : String) (p : Post) :
    ∀ gs : List (String × List Post), (∀ kp ∈ gs, kp.2 ≠ []) →
      ∀ kp ∈ insertPost key p gs, kp.2 ≠ [] := by
  intro gs
  induction gs with
  | nil =>
    intro _ kp hkp
    simp [insertPost] at hkp
    rw [hkp]
    simp
  | cons g rest ih =>
    obtain ⟨k, ps⟩ := g
    intro h kp hkp
    unfold insertPost at hkp
    by_cases hk : k = key
    · rw [if_pos hk] at hkp
      rcases List.mem_cons.mp hkp with h1 | h1
      · rw [h1]
        simp
      · exact h kp (List.mem_cons_of_mem _ h1)
    · rw [if_neg hk] at hkp
      rcases List.mem_cons.mp hkp with h1 | h1
      · rw [h1]
        exact h (k, ps) (List.mem_cons_self _ _)
      · exact ih (fun kp2 hkp2 => h kp2 (List.mem_cons_of_mem _ hkp2)) kp h1

theorem insertPost_keys_mem (key : String) (p : Post) :
    ∀ gs (x : String), x ∈ (insertPost key p gs).map Prod.fst →
      x ∈ gs.map Prod.fst ∨ x = key := by
  intro gs
  induction gs with
  | nil =>
    intro x hx
    simp [insertPost] at hx
    exact Or.inr hx
  | cons g rest ih =>
    obtain ⟨k, ps⟩ := g
    intro x hx
    unfold insertPost at hx
    by_cases hk : k = key
    · rw [if_pos hk] at hx
      simp only [List.map_cons, List.mem_cons] at hx
      rcases hx with h1 | h1
      · left; simp [h1]
      · left
        rw [List.map_cons]
        exact List.mem_cons_of_mem _ h1
    · rw [if_neg hk] at hx
      simp only [List.map_cons, List.mem_cons] at hx
      rcases hx with h1 | h1
      · left; simp [h1]
      · rcases ih x h1 with h2 | h2
        · left
          rw [List.map_cons]
          exact List.mem_cons_of_mem _ h2
        · right; exact h2

theorem insertPost_keys_nodup (key : String) (p : Post) :
    ∀ gs, (gs.map Prod.fst).Nodup → ((insertPost key p gs).map Prod.fst).Nodup := by
  intro gs
  induction gs with
  | nil => intro _; simp [insertPost]
  | cons g rest ih =>
    obtain ⟨k, ps⟩ := g
    intro h
    unfold insertPost
    by_cases hk : k = key
    · rw [if_pos hk]
      simpa using h
    · rw [if_neg hk]
      simp only [List.map_cons, List.nodup_cons] at h ⊢
      refine ⟨?_, ih h.2⟩
      intro hmem
      rcases insertPost_keys_mem key p rest k hmem with h1 | h1
      · exact h.1 h1
      · exact hk h1

theorem insertPost_letters (key : String) (p : Post) (hp : firstLetter p.title = key) :
    ∀ gs, (∀ kp ∈ gs, ∀ q ∈ kp.2, firstLetter q.title = kp.1) →
      ∀ kp ∈ insertPost key p gs, ∀ q ∈ kp.2, firstLetter q.title = kp.1 := by
  intro gs
  induction gs with
  | nil =>
    intro _ kp hkp q hq
    simp [insertPost] at hkp
    subst hkp
    simp at hq
    rw [hq]
    simpa using hp
  | cons g rest ih =>
    obtain ⟨k, ps⟩ := g
    intro h kp hkp q hq
    unfold insertPost at hkp
    by_cases hk : k = key
    · rw [if_pos hk] at hkp
      rcases List.mem_cons.mp hkp with h1 | h1
      · subst h1
        rcases List.mem_append.mp hq with h2 | h2
        · exact h (k, ps) (List.mem_cons_self _ _) q h2
        · simp at h2
          rw [h2]
          exact hp.trans hk.symm
      · exact h kp (List.mem_cons_of_mem _ h1) q hq
    · rw [if_neg hk] at hkp
      rcases List.mem_cons.mp hkp with h1 | h1
      · subst h1
        exact h (k, ps) (List.mem_cons_self _ _) q hq
      · exact ih (fun kp2 hkp2 => h kp2 (List.mem_cons_of_mem _ hkp2)) kp h1 q hq

theorem insertPost_total (key : String) (p : Post) :
    ∀ gs, bucketsTotal ((insertPost key p gs).map Prod.snd) =
      bucketsTotal (gs.map Prod.snd) + 1 := by
  intro gs
  induction gs with
  | nil => simp [insertPost, bucketsTotal]
  | cons g rest ih =>
    obtain ⟨k, ps⟩ := g
    unfold insertPost
    by_cases hk : k = key
    · rw [if_pos hk]
      simp only [List.map_cons, bucketsTotal_cons, List.length_append, List.length_cons,
        List.length_nil]
      omega
    · rw [if_neg hk]
      simp only [List.map_cons, bucketsTotal_cons]
      rw [ih]
      omega

theorem groupFold_snd_ne (posts : List Post) :
    ∀ gs, (∀ kp ∈ gs, kp.2 ≠ []) →
      ∀ kp ∈ posts.foldl (fun gs p => insertPost (firstLetter p.title) p gs) gs,
        kp.2 ≠ [] := by
  induction posts with
  | nil => intro gs h; exact h
  | cons p rest ih =>
    intro gs h
    simp only [List.foldl_cons]
    exact ih _ (insertPost_snd_ne _ _ gs h)

theorem groupFold_keys_nodup (posts : List Post) :
    ∀ gs, (gs.map Prod.fst).Nodup →
      ((posts.foldl (fun gs p => insertPost (firstLetter p.title) p gs) gs).map
        Prod.fst).Nodup := by
  induction posts with
  | nil => intro gs h; exact h
  | cons p rest ih =>
    intro gs h
    simp only [List.foldl_cons]
    exact ih _ (insertPost_keys_nodup _ _ gs h)

theorem groupFold_letters (posts : List Post) :
    ∀ gs, (∀ kp ∈ gs, ∀ q ∈ kp.2, firstLetter q.title = kp.1) →
      ∀ kp ∈ posts.foldl (fun gs p => insertPost (firstLetter p.title) p gs) gs,
        ∀ q ∈ kp.2, firstLetter q.title = kp.1 := by
  induction posts with
  | nil => intro gs h; exact h
  | cons p rest ih =>
    intro gs h
    simp only [List.foldl_cons]
    exact ih _ (insertPost_letters _ _ rfl gs h)

theorem groupFold_total (posts : List Post) :
    ∀ gs, bucketsTotal
        ((posts.foldl (fun gs p => insertPost (firstLetter p.title) p gs) gs).map
          Prod.snd) =
      bucketsTotal (gs.map Prod.snd) + posts.length := by
  induction posts with
  | nil => intro gs; simp
  | cons p rest ih =>
    intro gs
    simp only [List.foldl_cons, List.length_cons]
    rw [ih, insertPost_total]
    omega

theorem insertGroupDesc_perm (x : String × List Post) :
    ∀ l, (insertGroupDesc x l).Perm (x :: l) := by
  intro l
  induction l with
  | nil => exact List.Perm.refl _
  | cons y ys ih =>
    unfold insertGroupDesc
    by_cases hc : y.2.length < x.2.length
    · rw [if_pos hc]
    · rw [if_neg hc]
      exact (ih.cons y).trans (List.Perm.swap x y ys)

theorem sortGroups_perm_aux :
    ∀ (gs acc : List (String × List Post)),
      (gs.foldl (fun acc x => insertGroupDesc x acc) acc).Perm (acc ++ gs) := by
  intro gs
  induction gs with
  | nil =>
    intro acc
    rw [List.append_nil]
    exact List.Perm.refl _
  | cons g rest ih =>
    intro acc
    simp only [List.foldl_cons]
    refine (ih (insertGroupDesc g acc)).trans ?_
    refine ((insertGroupDesc_perm g acc).append_right rest).trans ?_
    rw [List.cons_append]
    exact List.perm_middle.symm

theorem sortGroups_perm (gs : List (String × List Post)) : (sortGroups gs).Perm gs := by
  have h := sortGroups_perm_aux gs []
  simpa using h

theorem headLetters :
    ∀ sg : List (String × List Post),
      (∀ kp ∈ sg, kp.2 ≠ []) →
      (∀ kp ∈ sg, ∀ q ∈ kp.2, firstLetter q.title = kp.1) →
      (sg.map Prod.snd).map (fun b => firstLetter ((b.headD dummyPost).title)) =
        sg.map Prod.fst := by
  intro sg
  induction sg with
  | nil => intro _ _; rfl
  | cons g rest ih =>
    obtain ⟨k, ps⟩ := g
    intro h1 h2
    simp only [List.map_cons]
    congr 1
    · cases ps with
      | nil => exact absurd rfl (h1 (k, []) (List.mem_cons_self _ _))
      | cons q qs =>
        exact h2 (k, q :: qs) (List.mem_cons_self _ _) q (List.mem_cons_self _ _)
    · exact ih (fun kp h => h1 kp (List.mem_cons_of_mem _ h))
        (fun kp h => h2 kp (List.mem_cons_of_mem _ h))

/-- Claim C2: for a cap strictly between zero and the number of records, the
selection contains exactly `cap` records, and their first letters cover at
least `min cap (number of buckets)` distinct buckets — the first pass of
the round-robin takes one record from each of the first `min cap n`
buckets. -/
theorem c2_theorem (posts : List Post) (c : Nat) (h1 : 0 < c) (h2 : c < posts.length) :
    (selectPosts c posts).length = c ∧
      min c (groupByFirstLetter posts).length ≤
        ((selectPosts c posts).map (fun p => firstLetter p.title)).dedup.length := by
  have hne_gs : ∀ kp ∈ groupByFirstLetter posts, kp.2 ≠ [] :=
    groupFold_snd_ne posts [] (by simp)
  have hnodup_gs : ((groupByFirstLetter posts).map Prod.fst).Nodup :=
    groupFold_keys_nodup posts [] (by simp)
  have hlet_gs : ∀ kp ∈ groupByFirstLetter posts, ∀ q ∈ kp.2, firstLetter q.title = kp.1 :=
    groupFold_letters posts [] (by simp)
  have htot_gs : bucketsTotal ((groupByFirstLetter posts).map Prod.snd) = posts.length := by
    have h := groupFold_total posts []
    rw [show bucketsTotal (([] : List (String × List Post)).map Prod.snd) = 0 from rfl] at h
    unfold groupByFirstLetter
    omega
  have hperm : (sortGroups (groupByFirstLetter posts)).Perm (groupByFirstLetter posts) :=
    sortGroups_perm _
  have hne_sg : ∀ kp ∈ sortGroups (groupByFirstLetter posts), kp.2 ≠ [] :=
    fun kp h => hne_gs kp (hperm.subset h)
  have hlet_sg : ∀ kp ∈ sortGroups (groupByFirstLetter posts), ∀ q ∈ kp.2,
      firstLetter q.title = kp.1 :=
    fun kp h => hlet_gs kp (hperm.subset h)
  have hnodup_sg : ((sortGroups (groupByFirstLetter posts)).map Prod.fst).Nodup :=
    ((hperm.map Prod.fst).nodup_iff).mpr hnodup_gs
  have htot : bucketsTotal ((sortGroups (groupByFirstLetter posts)).map Prod.snd) =
      posts.length := by
    have hp2 := (hperm.map Prod.snd).map List.length
    unfold bucketsTotal at htot_gs ⊢
    rw [hp2.sum_eq]
    exact htot_gs
  have hlen_sg : (sortGroups (groupByFirstLetter posts)).length =
      (groupByFirstLetter posts).length := hperm.length_eq
  have hn_pos : 0 < ((sortGroups (groupByFirstLetter posts)).map Prod.snd).length := by
    by_contra h0
    have hnil : sortGroups (groupByFirstLetter posts) = [] := by
      cases hsg : sortGroups (groupByFirstLetter posts) with
      | nil => rfl
      | cons a l =>
        rw [hsg] at h0
        simp at h0
    rw [hnil] at htot
    rw [show bucketsTotal (([] : List (String × List Post)).map Prod.snd) = 0 from rfl]
      at htot
    omega
  obtain ⟨⟨sel, b2⟩, hrun⟩ := Option.isSome_iff_exists.mp
    (samplerLoop_some (samplerFuel ((sortGroups (groupByFirstLetter posts)).map Prod.snd))
      ((sortGroups (groupByFirstLetter posts)).map Prod.snd) [] c 0
      (samplerMeasure_lt_fuel _ 0))
  have hsel : selectPosts c posts = sel := by
    unfold selectPosts processExportSelection samplerRun
    rw [if_pos ⟨h1, h2⟩, hrun]
    rfl
  rw [hsel]
  have hcount := samplerLoop_count _ _ _ _ _ _ _ hn_pos hrun
  have hcount2 : sel.length = c := by
    rw [htot] at hcount
    simp only [List.length_nil] at hcount
    omega
  refine ⟨hcount2, ?_⟩
  have hne_buckets : ∀ j, 0 ≤ j →
      j < ((sortGroups (groupByFirstLetter posts)).map Prod.snd).length →
      ((sortGroups (groupByFirstLetter posts)).map Prod.snd).getD j [] ≠ [] := by
    intro j _ hj
    rw [List.getD_eq_getElem _ [] hj]
    rw [List.getElem_map]
    exact hne_sg _ (List.getElem_mem _)
  have hfp := samplerLoop_firstPass _ _ _ _ _ _ _ hn_pos hne_buckets hrun
  simp only [List.drop_zero, Nat.sub_zero, List.nil_append] at hfp
  have hmapped := hfp.map (fun p => firstLetter p.title)
  rw [List.map_map, List.map_take] at hmapped
  have hbl : ((sortGroups (groupByFirstLetter posts)).map Prod.snd).map
      ((fun p => firstLetter p.title) ∘ (fun b => b.headD dummyPost)) =
      (sortGroups (groupByFirstLetter posts)).map Prod.fst := by
    have hhl := headLetters _ hne_sg hlet_sg
    simpa [Function.comp] using hhl
  rw [hbl] at hmapped
  have hKnodup : (((sortGroups (groupByFirstLetter posts)).map Prod.fst).take
      (min c ((sortGroups (groupByFirstLetter posts)).map Prod.snd).length)).Nodup :=
    hnodup_sg.sublist (List.take_sublist _ _)
  have hKlen : (((sortGroups (groupByFirstLetter posts)).map Prod.fst).take
      (min c ((sortGroups (groupByFirstLetter posts)).map Prod.snd).length)).length =
      min c (groupByFirstLetter posts).length := by
    rw [List.length_take, List.length_map, List.length_map, hlen_sg]
    omega
  have hcard : (((sortGroups (groupByFirstLetter posts)).map Prod.fst).take
      (min c ((sortGroups (groupByFirstLetter posts)).map Prod.snd).length)).length ≤
      (sel.map (fun p => firstLetter p.title)).dedup.length := by
    have hc1 := List.toFinset_card_of_nodup hKnodup
    have hc2 : (((sortGroups (groupByFirstLetter posts)).map Prod.fst).take
        (min c ((sortGroups (groupByFirstLetter posts)).map Prod.snd).length)).toFinset ⊆
        (sel.map (fun p => firstLetter p.title)).toFinset := by
      intro x hx
      rw [List.mem_toFinset] at hx ⊢
      exact hmapped.subset hx
    have hc3 := Finset.card_le_card hc2
    rw [hc1, List.card_toFinset] at hc3
    exact hc3
  rw [← hKlen]
  exact hcard

/-- Closed instance of `c2_theorem`: four records, cap two. -/
theorem c2_witness :
    0 < 2 ∧
      (2 : Nat) < ([⟨"apple"⟩, ⟨"banana"⟩, ⟨"avocado"⟩, ⟨"cherry"⟩] : List Post).length ∧
      (selectPosts 2 [⟨"apple"⟩, ⟨"banana"⟩, ⟨"avocado"⟩, ⟨"cherry"⟩]).length = 2 ∧
      min 2 (groupByFirstLetter [⟨"apple"⟩, ⟨"banana"⟩, ⟨"avocado"⟩, ⟨"cherry"⟩]).length ≤
        ((selectPosts 2 [⟨"apple"⟩, ⟨"banana"⟩, ⟨"avocado"⟩, ⟨"cherry"⟩]).map
          (fun p => firstLetter p.title)).dedup.length :=
  ⟨by decide, by decide,
    c2_theorem [⟨"apple"⟩, ⟨"banana"⟩, ⟨"avocado"⟩, ⟨"cherry"⟩] 2 (by decide) (by decide)⟩
